import Mathlib

/-!
Verification development for the moracle core: the name-resolution
algorithm (`split_string`, `cursor_word`, `identify_card_name` and its
inner `search_words`) and the search predicate algebra
(`search`, `And`, `Or`, `Not`, `CMC`) together with the dictionary
operations they rely on.

Strings are modelled as lists of characters (`Str`), Python dictionaries
as insertion-ordered association lists with the usual dict update
semantics (`Dict`, `dictSet`, `dictUpdate`).  All definitions are
translated from the Python source; doc comments name the source
function each definition embeds.
-/

set_option autoImplicit false

namespace Moracle

/-- A Python `str`, modelled as its list of characters (ASCII in all uses). -/
abbrev Str := List Char

/-- A Python `dict` keyed by strings, modelled as an insertion-ordered
association list.  Real dicts never contain a duplicate key. -/
abbrev Dict (β : Type) := List (Str × β)

/-- Python `s.lower()` (ASCII case folding, which is all the catalog uses). -/
def lowerStr (s : Str) : Str := s.map Char.toLower

/-- The keys of a dictionary, in order. -/
def keys {β : Type} (m : Dict β) : List Str := m.map Prod.fst

/-- Helper for `strHas`: does `needle` occur at the very start of `hay`? -/
def strStarts : Str → Str → Bool
  | [], _ => true
  | _ :: _, [] => false
  | c :: cs, d :: ds => if c = d then strStarts cs ds else false

/-- Python's substring test `needle in hay` on strings. -/
def strHas : Str → Str → Bool
  | needle, [] => strStarts needle []
  | needle, c :: t => strStarts needle (c :: t) || strHas needle t

/-- Python `m[k]` on a dict, returning `none` for a missing key
(dict keys are unique, so first match is the match). -/
def dictFind {β : Type} : Dict β → Str → Option β
  | [], _ => none
  | kv :: rest, k => if kv.1 = k then some kv.2 else dictFind rest k

/-- Python `m[k] = v` on a dict: overwrite in place if the key is
present, append otherwise. -/
def dictSet {β : Type} (m : Dict β) (k : Str) (v : β) : Dict β :=
  if k ∈ keys m then m.map (fun p => if p.1 = k then (k, v) else p)
  else m ++ [(k, v)]

/-- Python `m.update(d)` on dicts: set every entry of `d` in `m`,
in the order of `d`. -/
def dictUpdate {β : Type} (m d : Dict β) : Dict β :=
  d.foldl (fun acc p => dictSet acc p.1 p.2) m

/-- `lookup_full` from `moracle/__init__.py`: `db[string.lower()]`,
with a `KeyError` modelled as `none`. -/
def lookup_full {β : Type} (db : Dict β) (string : Str) : Option β :=
  dictFind db (lowerStr string)

/-- `lookup_in` from `moracle/__init__.py`: all entries whose key has
`string.lower()` as a substring. -/
def lookup_in {β : Type} (db : Dict β) (string : Str) : Dict β :=
  db.filter (fun kv => strHas (lowerStr string) kv.1)

/-- The `Word` namedtuple of `moracle/__init__.py`.  The source's third
field is called `end`; `stop` stands in for it here (it is the offset of
the word's last character, inclusive). -/
structure Word where
  word : Str
  start : Nat
  stop : Nat
deriving DecidableEq, Repr

/-- `word_characters` from `moracle/__init__.py`: ASCII letters and digits. -/
def wordChars : Str :=
  ['a', 'b', 'c', 'd', 'e', 'f', 'g', 'h', 'i', 'j', 'k', 'l', 'm',
   'n', 'o', 'p', 'q', 'r', 's', 't', 'u', 'v', 'w', 'x', 'y', 'z',
   'A', 'B', 'C', 'D', 'E', 'F', 'G', 'H', 'I', 'J', 'K', 'L', 'M',
   'N', 'O', 'P', 'Q', 'R', 'S', 'T', 'U', 'V', 'W', 'X', 'Y', 'Z',
   '0', '1', '2', '3', '4', '5', '6', '7', '8', '9']

/-- The scanning loop of `split_string`: walk the remaining characters at
position `pos`, carrying the word currently being built (if any) and the
finished words so far.  The source mutates the last appended word in
place; carrying it separately and flushing it when it closes yields the
same list. -/
def splitGo (chars : Str) : List Char → Nat → Option Word → List Word → List Word
  | [], _, cur, acc => acc ++ cur.toList
  | c :: rest, pos, cur, acc =>
    if c ∈ chars then
      match cur with
      | none => splitGo chars rest (pos + 1) (some (Word.mk [c] pos pos)) acc
      | some w => splitGo chars rest (pos + 1) (some (Word.mk (w.word ++ [c]) w.start pos)) acc
    else
      splitGo chars rest (pos + 1) none (acc ++ cur.toList)

/-- `split_string` from `moracle/__init__.py`: split a line into maximal
runs of characters from `chars`, with start/stop offsets. -/
def split_string (string : Str) (chars : Str) : List Word :=
  splitGo chars string 0 none []

/-- The `for i, word in enumerate(words)` loop of `cursor_word`,
returning `none` when the loop runs off the end of the list. -/
def cursorLoop (cursor_pos : Nat) : List Word → Nat → Option Int
  | [], _ => none
  | w :: ws, i =>
    if cursor_pos < w.start then some ((i : Int) - 1)
    else if cursor_pos ≤ w.stop then some (i : Int)
    else cursorLoop cursor_pos ws (i + 1)

/-- `cursor_word` from `moracle/__init__.py`: the index of the word the
cursor sits in, the word left of the cursor for gap positions, `-1` when
the cursor precedes every word or there are no words, and the last
word's index when the cursor is past every word. -/
def cursor_word (words : List Word) (cursor_pos : Nat) : Int :=
  (cursorLoop cursor_pos words 0).getD ((words.length : Int) - 1)

/-- A field value of a catalog record: the mtgjson records hold strings,
numbers and lists of strings.  Numbers are modelled as integers. -/
inductive FieldVal where
  | str (s : Str)
  | num (n : Int)
  | list (l : List Str)
deriving DecidableEq, Repr

/-- One catalog record: a dict from field name to field value. -/
abbrev Record := Dict FieldVal

/-- The catalog: a dict from lower-cased name to record. -/
abbrev Catalog := Dict Record

/-- Python `record['name']` as used by `search_words`, defined for
records carrying a string `name` field (a record without one would raise
a `KeyError` in the source; `[]` stands in for that case). -/
def recName (r : Record) : Str :=
  match dictFind r ['n', 'a', 'm', 'e'] with
  | some (FieldVal.str s) => s
  | _ => []

/-- `Result.add` from `moracle/search.py`: copy the result, update the
copy with `d`, and return the copy (a `Result` is a plain dict plus
methods, so the copy step is implicit in the pure setting). -/
def Result.add {β : Type} (self d : Dict β) : Dict β := dictUpdate self d

/-- The `IS` comparison method from `moracle/search.py`:
case-insensitive equality of full strings.  The source would raise on a
non-string field value; that case is a non-match here. -/
def IS (value : FieldVal) (desired : Str) : Bool :=
  match value with
  | FieldVal.str s => decide (lowerStr s = lowerStr desired)
  | _ => false

/-- The `IN` comparison method from `moracle/search.py`: exact
membership for list-valued fields, case-insensitive substring search for
string-valued fields.  The source would raise on a numeric field value;
that case is a non-match here. -/
def IN (value : FieldVal) (desired : Str) : Bool :=
  match value with
  | FieldVal.list l => decide (desired ∈ l)
  | FieldVal.str s => strHas (lowerStr desired) (lowerStr s)
  | FieldVal.num _ => false

/-- The numeric comparison method `LT` from `moracle/search.py`
(`operator.lt`); only meaningful on numeric fields, a non-match
otherwise (the source would raise a `TypeError` there). -/
def LT (value : FieldVal) (desired : Int) : Bool :=
  match value with
  | FieldVal.num n => decide (n < desired)
  | _ => false

/-- The numeric comparison method `LE` from `moracle/search.py`. -/
def LE (value : FieldVal) (desired : Int) : Bool :=
  match value with
  | FieldVal.num n => decide (n ≤ desired)
  | _ => false

/-- The numeric comparison method `EQ` from `moracle/search.py`. -/
def EQ (value : FieldVal) (desired : Int) : Bool :=
  match value with
  | FieldVal.num n => decide (n = desired)
  | _ => false

/-- The numeric comparison method `GE` from `moracle/search.py`. -/
def GE (value : FieldVal) (desired : Int) : Bool :=
  match value with
  | FieldVal.num n => decide (desired ≤ n)
  | _ => false

/-- The numeric comparison method `GT` from `moracle/search.py`. -/
def GT (value : FieldVal) (desired : Int) : Bool :=
  match value with
  | FieldVal.num n => decide (desired < n)
  | _ => false

/-- `search` from `moracle/search.py`: keep each record on which `field`
is present and `method(record[field], value)` holds; a missing field is
a non-match, never an error. -/
def search {α : Type} (field : Str) (method : FieldVal → α → Bool) (value : α) :
    Catalog → Catalog :=
  fun db =>
    db.filter (fun kv =>
      match dictFind kv.2 field with
      | some fv => method fv value
      | none => false)

/-- `And` from `moracle/search.py`: `reduce(lambda result, c: c(result),
conditions, db)` — feed the input through every condition in turn. -/
def And {β : Type} (conditions : List (Dict β → Dict β)) : Dict β → Dict β :=
  fun db => conditions.foldl (fun result c => c result) db

/-- `Or` from `moracle/search.py`: `reduce(lambda result, c:
result.add(c(db)), conditions, Result())` — every condition sees the
same original input, and the results are unioned with `Result.add`. -/
def Or {β : Type} (conditions : List (Dict β → Dict β)) : Dict β → Dict β :=
  fun db => conditions.foldl (fun result c => Result.add result (c db)) []

/-- `Not` from `moracle/search.py`: every entry of `db` whose key is not
in `Or(*conditions)(db)`. -/
def Not {β : Type} (conditions : List (Dict β → Dict β)) : Dict β → Dict β :=
  fun db =>
    let mtchs := Or conditions db
    db.filter (fun kv => decide (kv.1 ∉ keys mtchs))

/-- The `methods` table of `CMC` in `moracle/search.py`. -/
def cmcMethods : Dict (FieldVal → Int → Bool) :=
  [(['l', 't'], LT), (['l', 'e'], LE), (['e', 'q'], EQ),
   (['g', 'e'], GE), (['g', 't'], GT)]

/-- The field name `convertedManaCost` used by `CMC`. -/
def cmcField : Str :=
  ['c', 'o', 'n', 'v', 'e', 'r', 't', 'e', 'd', 'M', 'a', 'n', 'a',
   'C', 'o', 's', 't']

/-- The list comprehension of `CMC` in `moracle/search.py`: one `search`
condition per keyword argument whose value is not `None`, in keyword
order; an unknown keyword with a non-`None` value raises a `KeyError`
in the source, modelled as `none`. -/
def cmcConds : List (Str × Option Int) → Option (List (Catalog → Catalog))
  | [] => some []
  | (_, none) :: rest => cmcConds rest
  | (m, some v) :: rest =>
    match dictFind cmcMethods m with
    | none => none
    | some meth => (cmcConds rest).map (fun cs => search cmcField meth v :: cs)

/-- `CMC` from `moracle/search.py`.  Note the source's signature is
`CMC(value, **kwargs)`: it requires a positional argument `value` that
the body never reads; `kwargs` holds the keyword bounds. -/
def CMC (value : Int) (kwargs : List (Str × Option Int)) :
    Option (Catalog → Catalog) :=
  (cmcConds kwargs).map (fun conds => And conds)

/-- The `MatchedCard` / `MultipleMatches` namedtuples of
`identify_card_name` in `moracle/__init__.py`, as the possible non-`None`
results of the inner `search_words`. -/
inductive SWOut where
  | matched (start_pos end_pos : Nat) (name : Str)
  | multiple (start_word end_word : Int) (mtchs : Catalog)
deriving DecidableEq, Repr

/-- Python `words[i]` on an in-range index (the source would raise an
`IndexError` out of range; a dummy word stands in for that case, which
no reachable call hits). -/
def wordAt (words : List Word) (i : Int) : Word :=
  words.getD i.toNat (Word.mk [] 0 0)

/-- The `current_replacement` closure of `search_words`:
`line[words[start_word].start : words[end_word].end + 1]`. -/
def replText (line : Str) (words : List Word) (start_word end_word : Int) : Str :=
  (line.take ((wordAt words end_word).stop + 1)).drop (wordAt words start_word).start

/-- The common tail of `search_words` (lines 312-324 of
`moracle/__init__.py`): after widening, re-derive the replacement text
from the current span, return a `MatchedCard` on an exact full-name
match against the incoming candidate set `db` (Python's `if full_match:`
is falsy for an empty record, hence the extra emptiness check), else a
`MatchedCard` if exactly one candidate remains, else `MultipleMatches`. -/
def finish (words : List Word) (line : Str) (db : Catalog)
    (start_word end_word : Int) (mtchs : Catalog) : Option SWOut :=
  let multi : Option SWOut :=
    match mtchs with
    | [kv] => some (SWOut.matched (wordAt words start_word).start
        (wordAt words end_word).stop (recName kv.2))
    | _ => some (SWOut.multiple start_word end_word mtchs)
  match lookup_full db (replText line words start_word end_word) with
  | some r =>
    if r = [] then multi
    else some (SWOut.matched (wordAt words start_word).start
      (wordAt words end_word).stop (recName r))
  | none => multi

/-- `search_words(db, start_word, end_word, search_left=True,
search_right=False)`: the leftward widening chain.  The recursion
(always one step further left) is driven by the fuel `n`, kept equal to
`(start_word + 1).toNat` by `searchLeft`, so that running out of fuel
coincides exactly with the source's `start_word < 0` guard. -/
def searchLeftAux (words : List Word) (line : Str) :
    Nat → Catalog → Int → Int → Option SWOut
  | 0, _, _, _ => none
  | n + 1, db, start_word, end_word =>
    if (words.length : Int) ≤ end_word then none
    else
      let mtchs := lookup_in db (replText line words start_word end_word)
      if mtchs = [] then none
      else
        match searchLeftAux words line n mtchs (start_word - 1) end_word with
        | some (SWOut.matched a b nm) => some (SWOut.matched a b nm)
        | some (SWOut.multiple s1 e1 m1) => finish words line db s1 e1 m1
        | none => finish words line db start_word end_word mtchs

/-- `search_words` with `search_left=True, search_right=False`. -/
def searchLeft (words : List Word) (line : Str) (db : Catalog)
    (start_word end_word : Int) : Option SWOut :=
  searchLeftAux words line (start_word + 1).toNat db start_word end_word

/-- `search_words(db, start_word, end_word, search_left=False,
search_right=True)`: the rightward widening chain, with fuel kept equal
to `(words.length - end_word).toNat` so that running out of fuel
coincides exactly with the source's `end_word >= len(words)` guard. -/
def searchRightAux (words : List Word) (line : Str) :
    Nat → Catalog → Int → Int → Option SWOut
  | 0, _, _, _ => none
  | n + 1, db, start_word, end_word =>
    if start_word < 0 then none
    else
      let mtchs := lookup_in db (replText line words start_word end_word)
      if mtchs = [] then none
      else
        match searchRightAux words line n mtchs start_word (end_word + 1) with
        | some (SWOut.matched a b nm) => some (SWOut.matched a b nm)
        | some (SWOut.multiple s1 e1 m1) => finish words line db s1 e1 m1
        | none => finish words line db start_word end_word mtchs

/-- `search_words` with `search_left=False, search_right=True`. -/
def searchRight (words : List Word) (line : Str) (db : Catalog)
    (start_word end_word : Int) : Option SWOut :=
  searchRightAux words line ((words.length : Int) - end_word).toNat db start_word end_word

/-- The `if search_right:` block plus tail of `search_words` when both
directions are enabled, entered with the state possibly already adopted
from the leftward attempt. -/
def bothRight (words : List Word) (line : Str) (db : Catalog)
    (start_word end_word : Int) (mtchs : Catalog) : Option SWOut :=
  match searchRight words line mtchs start_word (end_word + 1) with
  | some (SWOut.matched a b nm) => some (SWOut.matched a b nm)
  | some (SWOut.multiple s2 e2 m2) => finish words line db s2 e2 m2
  | none => finish words line db start_word end_word mtchs

/-- `search_words` with both directions enabled (the flags of the
outermost call): attempt leftward widening first — the nested call gets
`search_right=False` and keeps `search_left=True` — short-circuit a
definite match, adopt a narrowed ambiguous state, then attempt rightward
widening from the current state with `search_left=False`. -/
def searchBoth (words : List Word) (line : Str) (db : Catalog)
    (start_word end_word : Int) : Option SWOut :=
  if start_word < 0 then none
  else if (words.length : Int) ≤ end_word then none
  else
    let mtchs := lookup_in db (replText line words start_word end_word)
    if mtchs = [] then none
    else
      match searchLeft words line mtchs (start_word - 1) end_word with
      | some (SWOut.matched a b nm) => some (SWOut.matched a b nm)
      | some (SWOut.multiple s1 e1 m1) => bothRight words line db s1 e1 m1
      | none => bothRight words line db start_word end_word mtchs

/-- `search_words` with both directions disabled (a flag combination the
source never reaches, kept for a complete dispatch on the flags). -/
def searchNeither (words : List Word) (line : Str) (db : Catalog)
    (start_word end_word : Int) : Option SWOut :=
  if start_word < 0 then none
  else if (words.length : Int) ≤ end_word then none
  else
    let mtchs := lookup_in db (replText line words start_word end_word)
    if mtchs = [] then none
    else finish words line db start_word end_word mtchs

/-- The inner `search_words` of `identify_card_name`
(`moracle/__init__.py`, lines 282-324), as a dispatch on the two flag
arguments; each case is the source body specialised to the flag
combinations the recursion produces (the left call always passes
`search_right=False` keeping `search_left` at its default `True`, the
right call always passes `search_left=False` keeping
`search_right=True`). -/
def search_words (words : List Word) (line : Str) (db : Catalog)
    (start_word end_word : Int) (search_left search_right : Bool) : Option SWOut :=
  match search_left, search_right with
  | true, true => searchBoth words line db start_word end_word
  | true, false => searchLeft words line db start_word end_word
  | false, true => searchRight words line db start_word end_word
  | false, false => searchNeither words line db start_word end_word

/-- `search_words` with an explicit recursion-depth budget: a
step-indexed version of the source recursion, used to state termination
and the depth bound.  The outer `none` means the budget ran out before
the recursion returned; `some r` means the source recursion returned `r`
within `fuel` nested calls.  The recursive calls carry the flags the
source passes: the left attempt keeps `search_left=True` and passes
`search_right=False`, the right attempt passes `search_left=False`
keeping `search_right=True`. -/
def searchWordsF (words : List Word) (line : Str) :
    Nat → Catalog → Int → Int → Bool → Bool → Option (Option SWOut)
  | 0, _, _, _, _, _ => none
  | fuel + 1, db, start_word, end_word, search_left, search_right =>
    if start_word < 0 then some none
    else if (words.length : Int) ≤ end_word then some none
    else
      let mtchs := lookup_in db (replText line words start_word end_word)
      if mtchs = [] then some none
      else
        let rightStepF : Int → Int → Catalog → Option (Option SWOut) := fun s1 e1 m1 =>
          if search_right then
            match searchWordsF words line fuel m1 s1 (e1 + 1) false true with
            | none => none
            | some (some (SWOut.matched a b nm)) => some (some (SWOut.matched a b nm))
            | some (some (SWOut.multiple s2 e2 m2)) => some (finish words line db s2 e2 m2)
            | some none => some (finish words line db s1 e1 m1)
          else some (finish words line db s1 e1 m1)
        if search_left then
          match searchWordsF words line fuel mtchs (start_word - 1) end_word true false with
          | none => none
          | some (some (SWOut.matched a b nm)) => some (some (SWOut.matched a b nm))
          | some (some (SWOut.multiple s1 e1 m1)) => rightStepF s1 e1 m1
          | some none => rightStepF start_word end_word mtchs
        else rightStepF start_word end_word mtchs

/-- Modelled on the words of the specification for claim C1 (not on the
source): a variant of `search_words` in which the leftward nested
attempt is made with further LEFTWARD recursion disabled while rightward
widening stays enabled, and the rightward nested attempt with rightward
recursion disabled while leftward widening stays enabled — the opposite
flag assignment to the source's.  Step-indexed like `searchWordsF`. -/
def searchWordsClaimC1 (words : List Word) (line : Str) :
    Nat → Catalog → Int → Int → Bool → Bool → Option (Option SWOut)
  | 0, _, _, _, _, _ => none
  | fuel + 1, db, start_word, end_word, search_left, search_right =>
    if start_word < 0 then some none
    else if (words.length : Int) ≤ end_word then some none
    else
      let mtchs := lookup_in db (replText line words start_word end_word)
      if mtchs = [] then some none
      else
        let rightStepF : Int → Int → Catalog → Option (Option SWOut) := fun s1 e1 m1 =>
          if search_right then
            match searchWordsClaimC1 words line fuel m1 s1 (e1 + 1) true false with
            | none => none
            | some (some (SWOut.matched a b nm)) => some (some (SWOut.matched a b nm))
            | some (some (SWOut.multiple s2 e2 m2)) => some (finish words line db s2 e2 m2)
            | some none => some (finish words line db s1 e1 m1)
          else some (finish words line db s1 e1 m1)
        if search_left then
          match searchWordsClaimC1 words line fuel mtchs (start_word - 1) end_word false true with
          | none => none
          | some (some (SWOut.matched a b nm)) => some (some (SWOut.matched a b nm))
          | some (some (SWOut.multiple s1 e1 m1)) => rightStepF s1 e1 m1
          | some none => rightStepF start_word end_word mtchs
        else rightStepF start_word end_word mtchs

/-- The result of `identify_card_name`: Python's `None`, a
`MatchedCard` tuple, or (for a top-level `MultipleMatches`) the bare
candidate dict with no positions. -/
inductive IdResult where
  | noMatch
  | matched (start_pos end_pos : Nat) (name : Str)
  | candidates (mtchs : Catalog)
deriving DecidableEq, Repr

/-- `identify_card_name` from `moracle/__init__.py`: tokenize the line,
locate the cursor's word, run `search_words` on the single-word span
with both directions enabled, and strip the positions off a top-level
`MultipleMatches`. -/
def identify_card_name (db : Catalog) (line : Str) (cursor_pos : Nat) : IdResult :=
  let words := split_string line wordChars
  let word_index := cursor_word words cursor_pos
  match search_words words line db word_index word_index true true with
  | some (SWOut.matched a b nm) => IdResult.matched a b nm
  | some (SWOut.multiple _ _ m) => IdResult.candidates m
  | none => IdResult.noMatch

/-- `identify_card_name` run through the step-indexed `searchWordsF`:
`none` when the recursion-depth budget runs out, `some` of the source's
result otherwise. -/
def identifyF (fuel : Nat) (db : Catalog) (line : Str) (cursor_pos : Nat) :
    Option IdResult :=
  let words := split_string line wordChars
  let word_index := cursor_word words cursor_pos
  match searchWordsF words line fuel db word_index word_index true true with
  | none => none
  | some none => some IdResult.noMatch
  | some (some (SWOut.matched a b nm)) => some (IdResult.matched a b nm)
  | some (some (SWOut.multiple _ _ m)) => some (IdResult.candidates m)

/-- One-step recursion equation for the leftward chain: `searchLeft`
satisfies the source body of `search_words` at
`search_left=True, search_right=False`. -/
theorem searchLeft_eq (words : List Word) (line : Str) (db : Catalog) (s e : Int) :
    searchLeft words line db s e =
      if s < 0 then none
      else if (words.length : Int) ≤ e then none
      else
        let m := lookup_in db (replText line words s e)
        if m = [] then none
        else
          match searchLeft words line m (s - 1) e with
          | some (SWOut.matched a b nm) => some (SWOut.matched a b nm)
          | some (SWOut.multiple s1 e1 m1) => finish words line db s1 e1 m1
          | none => finish words line db s e m := by
  by_cases h : s < 0
  · have h0 : (s + 1).toNat = 0 := by omega
    simp only [searchLeft, h0, searchLeftAux, if_pos h]
  · have h1 : (s + 1).toNat = (s - 1 + 1).toNat + 1 := by omega
    simp only [searchLeft, h1, searchLeftAux, if_neg h]

/-- One-step recursion equation for the rightward chain: `searchRight`
satisfies the source body of `search_words` at
`search_left=False, search_right=True`. -/
theorem searchRight_eq (words : List Word) (line : Str) (db : Catalog) (s e : Int) :
    searchRight words line db s e =
      if s < 0 then none
      else if (words.length : Int) ≤ e then none
      else
        let m := lookup_in db (replText line words s e)
        if m = [] then none
        else
          match searchRight words line m s (e + 1) with
          | some (SWOut.matched a b nm) => some (SWOut.matched a b nm)
          | some (SWOut.multiple s1 e1 m1) => finish words line db s1 e1 m1
          | none => finish words line db s e m := by
  by_cases h2 : (words.length : Int) ≤ e
  · have h0 : ((words.length : Int) - e).toNat = 0 := by omega
    by_cases h : s < 0
    · simp only [searchRight, h0, searchRightAux, if_pos h]
    · simp only [searchRight, h0, searchRightAux, if_neg h, if_pos h2]
  · have h1 : ((words.length : Int) - e).toNat =
        ((words.length : Int) - (e + 1)).toNat + 1 := by omega
    simp only [searchRight, h1, searchRightAux, if_neg h2]

/-- The recursion equation of the source `search_words`
(`moracle/__init__.py`, lines 282-324), for every flag combination: the
guards, the substring query, then — when enabled — the leftward attempt,
made with `search_left=True` (its default) and `search_right=False`,
whose definite match short-circuits and whose ambiguous result is
adopted as the current state; then — when enabled — the rightward
attempt from the current state, made with `search_left=False` and
`search_right=True`, with the same short-circuit/adopt rule; finally the
common tail `finish`. -/
theorem search_words_unfold (words : List Word) (line : Str) (db : Catalog)
    (s e : Int) (L R : Bool) :
    search_words words line db s e L R =
      if s < 0 then none
      else if (words.length : Int) ≤ e then none
      else
        let m := lookup_in db (replText line words s e)
        if m = [] then none
        else
          let rightStep : Int → Int → Catalog → Option SWOut := fun s1 e1 m1 =>
            if R then
              match search_words words line m1 s1 (e1 + 1) false true with
              | some (SWOut.matched a b nm) => some (SWOut.matched a b nm)
              | some (SWOut.multiple s2 e2 m2) => finish words line db s2 e2 m2
              | none => finish words line db s1 e1 m1
            else finish words line db s1 e1 m1
          if L then
            match search_words words line m (s - 1) e true false with
            | some (SWOut.matched a b nm) => some (SWOut.matched a b nm)
            | some (SWOut.multiple s1 e1 m1) => rightStep s1 e1 m1
            | none => rightStep s e m
          else rightStep s e m := by
  cases L <;> cases R
  · rfl
  · exact searchRight_eq words line db s e
  · exact searchLeft_eq words line db s e
  · rfl

/-- `finish` only ever reports a `MultipleMatches` carrying exactly the
span and candidate set it was given. -/
theorem finish_multiple {words : List Word} {line : Str} {db : Catalog}
    {s e : Int} {m : Catalog} {s' e' : Int} {m' : Catalog}
    (h : finish words line db s e m = some (SWOut.multiple s' e' m')) :
    s' = s ∧ e' = e ∧ m' = m := by
  simp only [finish] at h
  split at h <;> split at h <;>
    first
    | (simp only [Option.some.injEq, SWOut.multiple.injEq] at h ⊢
       exact ⟨h.1.symm, h.2.1.symm, h.2.2.symm⟩)
    | simp at h
    | (split at h <;>
        first
        | (simp only [Option.some.injEq, SWOut.multiple.injEq] at h ⊢
           exact ⟨h.1.symm, h.2.1.symm, h.2.2.symm⟩)
        | simp at h)

/-- A `MultipleMatches` coming out of the leftward chain starts no later
than the span it was asked about and ends exactly where it ends. -/
theorem searchLeftAux_multiple {words : List Word} {line : Str} :
    ∀ {n : Nat} {db : Catalog} {s e s' e' : Int} {m' : Catalog},
    searchLeftAux words line n db s e = some (SWOut.multiple s' e' m') →
    s' ≤ s ∧ e' = e := by
  intro n
  induction n with
  | zero => intro db s e s' e' m' h; exact absurd h (by simp [searchLeftAux])
  | succ n ih =>
    intro db s e s' e' m' h
    simp only [searchLeftAux] at h
    split at h
    · exact absurd h (by simp)
    · split at h
      · exact absurd h (by simp)
      · split at h
        · exact absurd h (by simp)
        · next s1 e1 m1 heq =>
          obtain ⟨hs, he, _⟩ := finish_multiple h
          obtain ⟨hs1, he1⟩ := ih heq
          omega
        · obtain ⟨hs, he, _⟩ := finish_multiple h
          omega

/-- A `MultipleMatches` coming out of the rightward chain starts exactly
where the asked span starts and ends no earlier. -/
theorem searchRightAux_multiple {words : List Word} {line : Str} :
    ∀ {n : Nat} {db : Catalog} {s e s' e' : Int} {m' : Catalog},
    searchRightAux words line n db s e = some (SWOut.multiple s' e' m') →
    s' = s ∧ e ≤ e' := by
  intro n
  induction n with
  | zero => intro db s e s' e' m' h; exact absurd h (by simp [searchRightAux])
  | succ n ih =>
    intro db s e s' e' m' h
    simp only [searchRightAux] at h
    split at h
    · exact absurd h (by simp)
    · split at h
      · exact absurd h (by simp)
      · split at h
        · exact absurd h (by simp)
        · next s1 e1 m1 heq =>
          obtain ⟨hs, he, _⟩ := finish_multiple h
          obtain ⟨hs1, he1⟩ := ih heq
          omega
        · obtain ⟨hs, he, _⟩ := finish_multiple h
          omega

/-- A `MultipleMatches` result of `search_words` (any flags) covers a
span at least as wide as the one asked about, on both sides. -/
theorem search_words_multiple {words : List Word} {line : Str}
    {db : Catalog} {s e : Int} {L R : Bool} {s' e' : Int} {m' : Catalog}
    (h : search_words words line db s e L R = some (SWOut.multiple s' e' m')) :
    s' ≤ s ∧ e ≤ e' := by
  cases L <;> cases R
  · -- neither direction
    simp only [search_words, searchNeither] at h
    split at h
    · exact absurd h (by simp)
    · split at h
      · exact absurd h (by simp)
      · split at h
        · exact absurd h (by simp)
        · obtain ⟨hs, he, _⟩ := finish_multiple h
          omega
  · have := searchRightAux_multiple
      (show searchRightAux words line ((words.length : Int) - e).toNat db s e =
        some (SWOut.multiple s' e' m') from h)
    omega
  · have := searchLeftAux_multiple
      (show searchLeftAux words line (s + 1).toNat db s e =
        some (SWOut.multiple s' e' m') from h)
    omega
  · -- both flags: left attempt then right attempt
    simp only [search_words, searchBoth] at h
    split at h
    · exact absurd h (by simp)
    · split at h
      · exact absurd h (by simp)
      · split at h
        · exact absurd h (by simp)
        · split at h
          · exact absurd h (by simp)
          · next s1 e1 m1 heq =>
            have h1 := searchLeftAux_multiple
              (show searchLeftAux words line (s - 1 + 1).toNat _ (s - 1) e =
                some (SWOut.multiple s1 e1 m1) from heq)
            simp only [bothRight] at h
            split at h
            · exact absurd h (by simp)
            · next s2 e2 m2 heq2 =>
              have h2 := searchRightAux_multiple
                (show searchRightAux words line ((words.length : Int) - (e1 + 1)).toNat _ s1 (e1 + 1) =
                  some (SWOut.multiple s2 e2 m2) from heq2)
              obtain ⟨hs, he, _⟩ := finish_multiple h
              omega
            · obtain ⟨hs, he, _⟩ := finish_multiple h
              omega
          · simp only [bothRight] at h
            split at h
            · exact absurd h (by simp)
            · next s2 e2 m2 heq2 =>
              have h2 := searchRightAux_multiple
                (show searchRightAux words line ((words.length : Int) - (e + 1)).toNat _ s (e + 1) =
                  some (SWOut.multiple s2 e2 m2) from heq2)
              obtain ⟨hs, he, _⟩ := finish_multiple h
              omega
            · obtain ⟨hs, he, _⟩ := finish_multiple h
              omega

/-- `search_words` returns `None` whenever a span boundary is out of
range, for every flag combination. -/
theorem search_words_guard {words : List Word} {line : Str} {db : Catalog}
    {s e : Int} {L R : Bool} (h : s < 0 ∨ (words.length : Int) ≤ e) :
    search_words words line db s e L R = none := by
  rw [search_words_unfold]
  rcases h with h | h
  · simp [h]
  · by_cases h' : s < 0 <;> simp [h, h']

/-- The recursion-depth budget that suffices for `search_words` on the
span `[s, e]`: one call for an out-of-range span, and otherwise one call
per width the span can still grow through, plus the final vacuous
boundary call. -/
def needF (len : Nat) (s e : Int) : Nat :=
  if s < 0 ∨ (len : Int) ≤ e then 1 else ((len : Int) - e + s + 1).toNat

/-- The budget is always positive. -/
theorem needF_pos (len : Nat) (s e : Int) : 1 ≤ needF len s e := by
  unfold needF
  split
  · omega
  · next h =>
    rw [not_or] at h
    omega

/-- In-range spans need a budget of at least two. -/
theorem needF_ge_two {len : Nat} {s e : Int} (hs : ¬ s < 0)
    (he : ¬ (len : Int) ≤ e) : 2 ≤ needF len s e := by
  unfold needF
  rw [if_neg (not_or.mpr ⟨hs, he⟩)]
  omega

/-- The leftward nested call fits in the remaining budget. -/
theorem needF_left {len : Nat} {s e : Int} {n : Nat} (hs : ¬ s < 0)
    (he : ¬ (len : Int) ≤ e) (hf : needF len s e ≤ n + 1) :
    needF len (s - 1) e ≤ n := by
  unfold needF at hf ⊢
  rw [if_neg (not_or.mpr ⟨hs, he⟩)] at hf
  split
  · next h => omega
  · next h =>
    rw [not_or] at h
    omega

/-- The rightward nested call, made from a state whose span covers the
original one, fits in the remaining budget. -/
theorem needF_right {len : Nat} {s e : Int} {n : Nat} (hs : ¬ s < 0)
    (he : ¬ (len : Int) ≤ e) (hf : needF len s e ≤ n + 1)
    {s1 e1 : Int} (hs1 : s1 ≤ s) (he1 : e ≤ e1) :
    needF len s1 (e1 + 1) ≤ n := by
  unfold needF at hf ⊢
  rw [if_neg (not_or.mpr ⟨hs, he⟩)] at hf
  split
  · next h => omega
  · next h =>
    rw [not_or] at h
    omega

/-- With a recursion-depth budget of at least `needF`, the step-indexed
`searchWordsF` terminates and agrees with `search_words`. -/
theorem searchWordsF_complete (words : List Word) (line : Str) :
    ∀ (fuel : Nat) (db : Catalog) (s e : Int) (L R : Bool),
      needF words.length s e ≤ fuel →
      searchWordsF words line fuel db s e L R =
        some (search_words words line db s e L R) := by
  intro fuel
  induction fuel with
  | zero =>
    intro db s e L R hf
    have := needF_pos words.length s e
    omega
  | succ n ih =>
    intro db s e L R hf
    by_cases hs : s < 0
    · rw [search_words_guard (Or.inl hs)]
      simp only [searchWordsF, if_pos hs]
    · by_cases he : (words.length : Int) ≤ e
      · rw [search_words_guard (Or.inr he)]
        simp only [searchWordsF, if_neg hs, if_pos he]
      · rw [search_words_unfold]
        simp only [searchWordsF, if_neg hs, if_neg he]
        by_cases hme : lookup_in db (replText line words s e) = []
        · simp only [if_pos hme]
        · simp only [if_neg hme]
          cases L
          · cases R
            · -- neither direction
              simp only [Bool.false_eq_true, ite_false]
            · -- right only
              simp only [Bool.false_eq_true, eq_self_iff_true, ite_true, ite_false]
              rw [ih _ s (e + 1) false true (needF_right hs he hf le_rfl le_rfl)]
              cases hres : search_words words line
                  (lookup_in db (replText line words s e)) s (e + 1) false true with
              | none => rfl
              | some r => cases r <;> rfl
          · cases R
            · -- left only
              simp only [Bool.false_eq_true, eq_self_iff_true, ite_true, ite_false]
              rw [ih _ (s - 1) e true false (needF_left hs he hf)]
              cases hresL : search_words words line
                  (lookup_in db (replText line words s e)) (s - 1) e true false with
              | none => rfl
              | some r => cases r <;> rfl
            · -- both directions
              simp only [eq_self_iff_true, ite_true]
              rw [ih _ (s - 1) e true false (needF_left hs he hf)]
              cases hresL : search_words words line
                  (lookup_in db (replText line words s e)) (s - 1) e true false with
              | none =>
                rw [ih _ s (e + 1) false true (needF_right hs he hf le_rfl le_rfl)]
                cases hres : search_words words line
                    (lookup_in db (replText line words s e)) s (e + 1) false true with
                | none => rfl
                | some r => cases r <;> rfl
              | some r =>
                cases r with
                | matched a b nm => rfl
                | multiple s1 e1 m1 =>
                  obtain ⟨hs1, he1⟩ := search_words_multiple hresL
                  dsimp only
                  rw [ih _ s1 (e1 + 1) false true
                    (needF_right hs he hf (by omega) (by omega))]
                  cases hres : search_words words line m1 s1 (e1 + 1) false true with
                  | none => rfl
                  | some r2 => cases r2 <;> rfl

/-- The cursor loop walks straight past every word that starts at or
before the cursor and ends strictly before it. -/
theorem cursorLoop_skip (pos : Nat) (front rest : List Word) (i : Nat)
    (h : ∀ w ∈ front, w.start ≤ pos ∧ w.stop < pos) :
    cursorLoop pos (front ++ rest) i = cursorLoop pos rest (i + front.length) := by
  induction front generalizing i with
  | nil => simp
  | cons w ws ih =>
    have hw := h w (by simp)
    simp only [List.cons_append, cursorLoop, List.append_eq]
    rw [if_neg (by omega), if_neg (by omega),
      ih (i + 1) (fun u hu => h u (by simp [hu]))]
    have hlen : i + 1 + ws.length = i + (w :: ws).length := by
      simp only [List.length_cons]
      omega
    rw [hlen]

/-- The cursor loop runs off the end when the cursor is past every word. -/
theorem cursorLoop_none (pos : Nat) (ws : List Word) (i : Nat)
    (h : ∀ w ∈ ws, w.start ≤ pos ∧ w.stop < pos) :
    cursorLoop pos ws i = none := by
  have := cursorLoop_skip pos ws [] i h
  simpa [cursorLoop] using this

/-- When the cursor is past every word (each of which is well-formed),
`cursor_word` returns the index of the last word; on no words at all
this value is `-1`. -/
theorem cursor_word_past_all (pos : Nat) (ws : List Word)
    (h : ∀ w ∈ ws, w.start ≤ w.stop ∧ w.stop < pos) :
    cursor_word ws pos = (ws.length : Int) - 1 := by
  unfold cursor_word
  rw [cursorLoop_none pos ws 0 (fun w hw => by
    obtain ⟨h1, h2⟩ := h w hw
    exact ⟨by omega, h2⟩)]
  rfl

/-- When some word starts after the cursor and the words left of the
first such word all start at or before the cursor, `cursor_word`
returns that word's index minus one — provided the word list is ordered
the way the tokenizer produces it. -/
theorem cursor_word_first_start_gt (pos : Nat) (front : List Word) (w : Word)
    (rest : List Word)
    (hpair : List.Pairwise (fun a b => a.stop < b.start) (front ++ w :: rest))
    (hprev : ∀ u ∈ front, u.start ≤ pos)
    (hw : pos < w.start) :
    cursor_word (front ++ w :: rest) pos = (front.length : Int) - 1 := by
  rcases List.eq_nil_or_concat front with rfl | ⟨us, u, rfl⟩
  · unfold cursor_word
    simp only [List.nil_append, cursorLoop, if_pos hw]
    rfl
  · rw [List.concat_eq_append] at hpair hprev ⊢
    have hu : u.start ≤ pos := hprev u (by simp)
    have hus : ∀ v ∈ us, v.start ≤ pos ∧ v.stop < pos := by
      intro v hv
      refine ⟨hprev v (by simp [hv]), ?_⟩
      have hp := (List.pairwise_append.mp hpair).1
      have := (List.pairwise_append.mp hp).2.2 v hv u (by simp)
      omega
    unfold cursor_word
    have hassoc : (us ++ [u]) ++ w :: rest = us ++ ([u] ++ w :: rest) := by
      simp
    rw [hassoc, cursorLoop_skip pos us ([u] ++ w :: rest) 0 hus]
    simp only [List.singleton_append, cursorLoop, if_neg (by omega : ¬ pos < u.start)]
    by_cases hus2 : pos ≤ u.stop
    · rw [if_pos hus2]
      simp only [Option.getD_some, List.length_append, List.length_singleton]
      push_cast
      omega
    · rw [if_neg hus2]
      simp only [cursorLoop, if_pos hw, Option.getD_some, List.length_append,
        List.length_singleton]
      push_cast
      omega

/-- When no word starts after the cursor and the words left of some word
all end before the cursor while that word ends at or after it,
`cursor_word` returns that word's index. -/
theorem cursor_word_first_stop_ge (pos : Nat) (front : List Word) (w : Word)
    (rest : List Word)
    (hstart : ∀ u ∈ front ++ w :: rest, u.start ≤ pos)
    (hprev : ∀ u ∈ front, u.stop < pos)
    (hw : pos ≤ w.stop) :
    cursor_word (front ++ w :: rest) pos = (front.length : Int) := by
  unfold cursor_word
  rw [cursorLoop_skip pos front (w :: rest) 0
    (fun u hu => ⟨hstart u (by simp [hu]), hprev u hu⟩)]
  have hws : ¬ pos < w.start := by
    have := hstart w (by simp)
    omega
  simp only [cursorLoop, if_neg hws, if_pos hw, Option.getD_some, Nat.zero_add]

/-- Invariant of the tokenizer loop: words come out in left-to-right
order, non-overlapping, each with `start ≤ stop`. -/
theorem splitGo_sorted (chars : Str) :
    ∀ (cs : List Char) (pos : Nat) (cur : Option Word) (acc : List Word),
      (∀ w ∈ acc ++ cur.toList, w.start ≤ w.stop ∧ w.stop < pos) →
      List.Pairwise (fun a b => a.stop < b.start) (acc ++ cur.toList) →
      (∀ w, cur = some w → w.stop + 1 = pos) →
      (∀ w ∈ splitGo chars cs pos cur acc, w.start ≤ w.stop) ∧
        List.Pairwise (fun a b => a.stop < b.start) (splitGo chars cs pos cur acc) := by
  intro cs
  induction cs with
  | nil =>
    intro pos cur acc hse hpw _
    refine ⟨fun w hw => (hse w ?_).1, ?_⟩
    · simpa [splitGo] using hw
    · simpa [splitGo] using hpw
  | cons c rest ih =>
    intro pos cur acc hse hpw hcur
    by_cases hc : c ∈ chars
    · cases cur with
      | none =>
        simp only [splitGo, if_pos hc]
        refine ih (pos + 1) (some (Word.mk [c] pos pos)) acc ?_ ?_ ?_
        · intro w hw
          simp only [Option.toList_some, List.mem_append, List.mem_singleton] at hw
          rcases hw with hw | rfl
          · have := hse w (by simpa using hw)
            exact ⟨this.1, by omega⟩
          · exact ⟨le_rfl, Nat.lt_succ_self pos⟩
        · rw [List.pairwise_append]
          refine ⟨by simpa using hpw, by simp, ?_⟩
          intro a ha b hb
          simp only [Option.toList_some, List.mem_singleton] at hb
          subst hb
          have := hse a (by simpa using ha)
          exact this.2
        · intro w hw
          cases hw
          rfl
      | some u =>
        simp only [splitGo, if_pos hc]
        have hu := hse u (by simp)
        have hupos := hcur u rfl
        have hpw' := List.pairwise_append.mp (by simpa using hpw)
        refine ih (pos + 1) (some (Word.mk (u.word ++ [c]) u.start pos)) acc ?_ ?_ ?_
        · intro w hw
          simp only [Option.toList_some, List.mem_append, List.mem_singleton] at hw
          rcases hw with hw | rfl
          · have := hse w (by
              simp only [Option.toList_some, List.mem_append, List.mem_singleton]
              exact Or.inl hw)
            exact ⟨this.1, by omega⟩
          · obtain ⟨hu1, hu2⟩ := hu
            exact ⟨show u.start ≤ pos by omega, show pos < pos + 1 by omega⟩
        · rw [List.pairwise_append]
          refine ⟨hpw'.1, by simp, ?_⟩
          intro a ha b hb
          simp only [Option.toList_some, List.mem_singleton] at hb
          subst hb
          have := hpw'.2.2 a ha u (by simp)
          exact this
        · intro w hw
          cases hw
          rfl
    · simp only [splitGo, if_neg hc]
      refine ih (pos + 1) none (acc ++ cur.toList) ?_ ?_ ?_
      · intro w hw
        simp only [Option.toList_none, List.append_nil] at hw
        have := hse w hw
        exact ⟨this.1, by omega⟩
      · simpa using hpw
      · intro w hw
        cases hw

/-- The tokenizer's output is ordered: every word has `start ≤ stop`,
and each word ends strictly before the next begins. -/
theorem split_string_sorted (line chars : Str) :
    (∀ w ∈ split_string line chars, w.start ≤ w.stop) ∧
      List.Pairwise (fun a b => a.stop < b.start) (split_string line chars) := by
  exact splitGo_sorted chars line 0 none [] (by simp) (by simp)
    (fun w hw => by cases hw)

/-- The cursor loop, when it returns inside the list, returns an index
below the starting index plus the list length. -/
theorem cursorLoop_lt (pos : Nat) :
    ∀ (ws : List Word) (i : Nat) (j : Int),
      cursorLoop pos ws i = some j → j < (i : Int) + ws.length := by
  intro ws
  induction ws with
  | nil => intro i j h; exact absurd h (by simp [cursorLoop])
  | cons w t ih =>
    intro i j h
    simp only [cursorLoop] at h
    split at h
    · cases h
      simp only [List.length_cons]
      push_cast
      omega
    · split at h
      · cases h
        simp only [List.length_cons]
        push_cast
        omega
      · have := ih (i + 1) j h
        simp only [List.length_cons]
        push_cast at this ⊢
        omega

/-- `cursor_word` always returns an index below the number of words. -/
theorem cursor_word_lt_length (ws : List Word) (pos : Nat) :
    cursor_word ws pos < (ws.length : Int) := by
  unfold cursor_word
  cases h : cursorLoop pos ws 0 with
  | none => simp only [Option.getD_none]; omega
  | some j =>
    have := cursorLoop_lt pos ws 0 j h
    simp only [Option.getD_some]
    omega

/-- Overwriting the entries at one key leaves the key sequence alone. -/
theorem keys_map_overwrite {β : Type} (m : Dict β) (k : Str) (v : β) :
    keys (m.map (fun p => if p.1 = k then (k, v) else p)) = keys m := by
  induction m with
  | nil => rfl
  | cons p t ih =>
    simp only [keys, List.map_cons] at ih ⊢
    by_cases hp : p.1 = k
    · rw [if_pos hp, ih, hp]
    · rw [if_neg hp, ih]

/-- A key present before a dict assignment is present after it. -/
theorem mem_keys_dictSet {β : Type} {m : Dict β} {k : Str} (k' : Str) (v' : β)
    (h : k ∈ keys m) : k ∈ keys (dictSet m k' v') := by
  unfold dictSet
  split
  · rw [keys_map_overwrite]
    exact h
  · simp only [keys, List.map_append]
    exact List.mem_append_left _ h

/-- The assigned key is present after a dict assignment. -/
theorem mem_keys_dictSet_self {β : Type} (m : Dict β) (k : Str) (v : β) :
    k ∈ keys (dictSet m k v) := by
  unfold dictSet
  split
  · next h =>
    rw [keys_map_overwrite]
    exact h
  · simp only [keys, List.map_append, List.map_cons, List.map_nil]
    exact List.mem_append_right _ (List.mem_singleton.mpr rfl)

/-- Every entry at key `k` holds value `v`. -/
def allVal {β : Type} (m : Dict β) (k : Str) (v : β) : Prop :=
  ∀ p ∈ m, p.1 = k → p.2 = v

/-- After `m[k] = v`, every entry at `k` holds `v`. -/
theorem allVal_dictSet_self {β : Type} (m : Dict β) (k : Str) (v : β) :
    allVal (dictSet m k v) k v := by
  unfold dictSet
  split
  · intro p hp hk
    obtain ⟨q, hq, rfl⟩ := List.mem_map.mp hp
    by_cases hq1 : q.1 = k
    · rw [if_pos hq1]
    · rw [if_neg hq1] at hk ⊢
      exact absurd hk hq1
  · next hmem =>
    intro p hp hk
    rcases List.mem_append.mp hp with hp | hp
    · exact absurd (hk ▸ List.mem_map_of_mem Prod.fst hp) hmem
    · simp only [List.mem_singleton] at hp
      rw [hp]

/-- Assigning a different key does not disturb the entries at `k`. -/
theorem allVal_dictSet_other {β : Type} {m : Dict β} {k : Str} {v : β}
    {k' : Str} (v' : β) (hne : k' ≠ k) (h : allVal m k v) :
    allVal (dictSet m k' v') k v := by
  unfold dictSet
  split
  · intro p hp hk
    obtain ⟨q, hq, rfl⟩ := List.mem_map.mp hp
    by_cases hq1 : q.1 = k'
    · rw [if_pos hq1] at hk ⊢
      exact absurd hk hne
    · rw [if_neg hq1] at hk ⊢
      exact h q hq hk
  · intro p hp hk
    rcases List.mem_append.mp hp with hp | hp
    · exact h p hp hk
    · simp only [List.mem_singleton] at hp
      rw [hp] at hk
      exact absurd hk hne

/-- An update whose keys avoid `k` does not disturb the entries at `k`. -/
theorem allVal_dictUpdate {β : Type} {d : Dict β} {k : Str} {v : β}
    (hk : k ∉ keys d) :
    ∀ {m : Dict β}, allVal m k v → allVal (dictUpdate m d) k v := by
  induction d with
  | nil => intro m h; exact h
  | cons kv t ih =>
    intro m h
    have hk1 : kv.1 ≠ k := by
      intro hcontra
      refine hk ?_
      rw [show keys (kv :: t) = kv.1 :: keys t from rfl, hcontra]
      exact List.mem_cons_self _ _
    have hk2 : k ∉ keys t := by
      intro hcontra
      refine hk ?_
      rw [show keys (kv :: t) = kv.1 :: keys t from rfl]
      exact List.mem_cons_of_mem _ hcontra
    exact ih hk2 (allVal_dictSet_other kv.2 hk1 h)

/-- A key present before a dict update is present after it. -/
theorem mem_keys_dictUpdate {β : Type} (d : Dict β) {m : Dict β} {k : Str}
    (h : k ∈ keys m) : k ∈ keys (dictUpdate m d) := by
  induction d generalizing m with
  | nil => exact h
  | cons kv t ih => exact ih (mem_keys_dictSet kv.1 kv.2 h)

/-- Overwriting at `k` with the value every `k`-entry already holds is
the identity on the entry list. -/
theorem map_overwrite_eq_self {β : Type} {m : Dict β} {k : Str} {v : β}
    (h : allVal m k v) :
    m.map (fun p => if p.1 = k then (k, v) else p) = m := by
  induction m with
  | nil => rfl
  | cons p t ih =>
    simp only [List.map_cons]
    rw [ih (fun q hq hk => h q (List.mem_cons_of_mem p hq) hk)]
    by_cases hp : p.1 = k
    · rw [if_pos hp]
      have hv := h p (List.mem_cons_self p t) hp
      rw [show (k, v) = p from Prod.ext hp.symm hv.symm]
    · rw [if_neg hp]

/-- Assigning `v` at a key already present with value `v` everywhere is
the identity. -/
theorem dictSet_eq_self {β : Type} {m : Dict β} {k : Str} {v : β}
    (hmem : k ∈ keys m) (h : allVal m k v) : dictSet m k v = m := by
  unfold dictSet
  rw [if_pos hmem]
  exact map_overwrite_eq_self h

/-- Updating with a dict whose keys carry no duplicates, twice in a row,
is the same as updating with it once. -/
theorem dictUpdate_idem {β : Type} :
    ∀ (d : Dict β), (keys d).Nodup →
      ∀ (m : Dict β), dictUpdate (dictUpdate m d) d = dictUpdate m d := by
  intro d
  induction d with
  | nil => intro _ m; rfl
  | cons kv t ih =>
    intro hnd m
    have hk : kv.1 ∉ keys t := by
      simp only [keys, List.map_cons, List.nodup_cons] at hnd
      exact hnd.1
    have hnd' : (keys t).Nodup := by
      simp only [keys, List.map_cons, List.nodup_cons] at hnd
      exact hnd.2
    show dictUpdate (dictUpdate (dictSet m kv.1 kv.2) t) (kv :: t) =
      dictUpdate (dictSet m kv.1 kv.2) t
    show dictUpdate
      (dictSet (dictUpdate (dictSet m kv.1 kv.2) t) kv.1 kv.2) t = _
    rw [dictSet_eq_self
      (mem_keys_dictUpdate t (mem_keys_dictSet_self m kv.1 kv.2))
      (allVal_dictUpdate hk (allVal_dictSet_self m kv.1 kv.2))]
    exact ih hnd' (dictSet m kv.1 kv.2)

/-- Modelled from the spec's words for `And` (for comparison with the
source definition): apply `p1` to the input, feed its result into `p2`,
and so on. -/
def andPipelineSpec {β : Type} : List (Dict β → Dict β) → Dict β → Dict β
  | [], s => s
  | p :: ps, s => andPipelineSpec ps (p s)

/-- Modelled from the spec's words for `Or`: the accumulation loop,
starting from an empty ResultSet and repeatedly taking the union
(`Result.add`) of the accumulator with each `pi(original_input)`. -/
def orUnionGo {β : Type} (s : Dict β) : List (Dict β → Dict β) → Dict β → Dict β
  | [], acc => acc
  | p :: ps, acc => orUnionGo s ps (Result.add acc (p s))

/-- Modelled from the spec's words for `Or` (for comparison with the
source definition): every predicate evaluated against the same original
input, unioned into an initially empty ResultSet. -/
def orUnionSpec {β : Type} (conditions : List (Dict β → Dict β)) (s : Dict β) :
    Dict β :=
  orUnionGo s conditions []

/-- A key in a dict's key list is found by `dictFind`. -/
theorem dictFind_of_mem_keys {β : Type} {d : Dict β} {k : Str}
    (h : k ∈ keys d) : ∃ v, dictFind d k = some v := by
  induction d with
  | nil => cases h
  | cons kv t ih =>
    by_cases hk : kv.1 = k
    · exact ⟨kv.2, by simp [dictFind, hk]⟩
    · have : k ∈ keys t := by
        rw [show keys (kv :: t) = kv.1 :: keys t from rfl] at h
        cases h with
        | head => exact absurd rfl hk
        | tail _ h => exact h
      obtain ⟨v, hv⟩ := ih this
      exact ⟨v, by simp [dictFind, hk, hv]⟩

/-- `cmcConds` under known keywords: each non-`None` bound contributes
exactly one `search` condition on the converted-cost field with the
method the keyword names, in order, and `None` bounds are skipped. -/
theorem cmcConds_eq (kwargs : List (Str × Option Int))
    (h : ∀ mv ∈ kwargs, mv.2 ≠ none → mv.1 ∈ keys cmcMethods) :
    cmcConds kwargs = some (kwargs.filterMap (fun mv =>
      match mv.2 with
      | none => none
      | some v => (dictFind cmcMethods mv.1).map
          (fun meth => search cmcField meth v))) := by
  induction kwargs with
  | nil => rfl
  | cons mv rest ih =>
    obtain ⟨m, ov⟩ := mv
    cases ov with
    | none =>
      simp only [cmcConds, List.filterMap_cons]
      exact ih (fun u hu => h u (List.mem_cons_of_mem _ hu))
    | some v =>
      obtain ⟨meth, hmeth⟩ := dictFind_of_mem_keys
        (h (m, some v) (List.mem_cons_self _ _) (by simp))
      simp only [cmcConds, List.filterMap_cons, hmeth,
        ih (fun u hu => h u (List.mem_cons_of_mem _ hu)), Option.map_some]
      rfl

/-- A one-record catalog holding the card "Island". -/
def islandDb : Catalog :=
  [(['i', 's', 'l', 'a', 'n', 'd'],
    [(['n', 'a', 'm', 'e'], FieldVal.str ['I', 's', 'l', 'a', 'n', 'd'])])]

/-- The line `island septictank` (gibberish second word). -/
def islandSepticLine : Str :=
  ['i', 's', 'l', 'a', 'n', 'd', ' ',
   's', 'e', 'p', 't', 'i', 'c', 't', 'a', 'n', 'k']

/-- The normalized key `volcanic rambler`. -/
def volRamblerKey : Str :=
  ['v', 'o', 'l', 'c', 'a', 'n', 'i', 'c', ' ',
   'r', 'a', 'm', 'b', 'l', 'e', 'r']

/-- The normalized key `volcanic rush`. -/
def volRushKey : Str :=
  ['v', 'o', 'l', 'c', 'a', 'n', 'i', 'c', ' ', 'r', 'u', 's', 'h']

/-- A two-record catalog holding "volcanic rambler" and "volcanic rush"
and no exact "volcanic r" record. -/
def volDb : Catalog :=
  [(volRamblerKey, [(['n', 'a', 'm', 'e'], FieldVal.str volRamblerKey)]),
   (volRushKey, [(['n', 'a', 'm', 'e'], FieldVal.str volRushKey)])]

/-- A line ending in the ambiguous fragment `Volcanic R`. -/
def volLine : Str :=
  ['V', 'o', 'l', 'c', 'a', 'n', 'i', 'c', ' ', 'R']

/-- The display name `A B C` of a three-word card. -/
def abcName : Str := ['A', ' ', 'B', ' ', 'C']

/-- A one-record catalog holding the three-word card "A B C". -/
def abcDb : Catalog :=
  [(['a', ' ', 'b', ' ', 'c'], [(['n', 'a', 'm', 'e'], FieldVal.str abcName)])]

/-- The line `a b c`. -/
def abcLine : Str := ['a', ' ', 'b', ' ', 'c']

/-- A one-record catalog holding the card "Swamp". -/
def swampDb : Catalog :=
  [(['s', 'w', 'a', 'm', 'p'],
    [(['n', 'a', 'm', 'e'], FieldVal.str ['S', 'w', 'a', 'm', 'p'])])]

/-- The line `swamp`. -/
def swampLine : Str := ['s', 'w', 'a', 'm', 'p']

/-- The last element of a list ending in `[a]` is `a`. -/
theorem getLast_append_one {α : Type} :
    ∀ (l : List α) (a : α) (h : l ++ [a] ≠ []), (l ++ [a]).getLast h = a := by
  intro l a
  induction l with
  | nil => intro _; rfl
  | cons x t ih =>
    intro h
    exact (List.getLast_cons (by simp : t ++ [a] ≠ [])).trans (ih _)

/-- `getLast` respects list equality. -/
theorem getLast_eq_of_eq {α : Type} {la lb : List α} (h : la = lb)
    (h1 : la ≠ []) : la.getLast h1 = lb.getLast (h ▸ h1) := by
  subst h
  rfl

/-- C4: `And(p1, ..., pn)(s)` is the sequential pipeline — the first
predicate is applied to the input `s` (Catalog or ResultSet) and each
later predicate to the previous predicate's ResultSet; in particular
`And(p, q)(s) = q(p(s))`. -/
theorem c4_and_pipeline :
    (∀ (β : Type) (conditions : List (Dict β → Dict β)) (s : Dict β),
      And conditions s = andPipelineSpec conditions s)
    ∧ ∀ (β : Type) (p q : Dict β → Dict β) (s : Dict β), And [p, q] s = q (p s) := by
  constructor
  · intro β conditions
    induction conditions with
    | nil => intro s; rfl
    | cons p ps ih => intro s; exact ih (p s)
  · intro β p q s
    rfl

/-- C5: `Or(p1, ..., pn)(s)` is the union, starting from an empty
ResultSet and accumulating with `Result.add`, of each `pi(s)`, every
`pi` evaluated against the same original input `s`; consequently
`Or(p, p)(s) = Or(p)(s)` (the key-uniqueness hypothesis is the dict
invariant every Python `Result` satisfies). -/
theorem c5_or_union :
    (∀ (β : Type) (conditions : List (Dict β → Dict β)) (s : Dict β),
      Or conditions s = orUnionSpec conditions s)
    ∧ ∀ (β : Type) (p : Dict β → Dict β) (s : Dict β),
        (keys (p s)).Nodup → Or [p, p] s = Or [p] s := by
  constructor
  · intro β conditions s
    suffices hgo : ∀ (ps : List (Dict β → Dict β)) (acc : Dict β),
        ps.foldl (fun result c => Result.add result (c s)) acc =
          orUnionGo s ps acc from hgo conditions []
    intro ps
    induction ps with
    | nil => intro acc; rfl
    | cons p t ih => intro acc; exact ih (Result.add acc (p s))
  · intro β p s hnd
    show Result.add (Result.add [] (p s)) (p s) = Result.add [] (p s)
    unfold Result.add
    exact dictUpdate_idem (p s) hnd []

/-- Witness for C5 at a concrete predicate and input. -/
theorem c5_witness :
    (keys ((fun _ : Dict Nat => [((['a'] : Str), 1)]) ([] : Dict Nat))).Nodup
    ∧ Or [fun _ : Dict Nat => [((['a'] : Str), 1)],
          fun _ : Dict Nat => [((['a'] : Str), 1)]] ([] : Dict Nat)
      = Or [fun _ : Dict Nat => [((['a'] : Str), 1)]] ([] : Dict Nat) :=
  ⟨by decide, c5_or_union.2 Nat (fun _ => [(['a'], 1)]) [] (by decide)⟩

/-- C6: `Not(p1, ..., pn)(db)` keeps exactly the entries of the `db` it
is handed at call time whose key is not a key of `Or(p1, ..., pn)(db)` —
a relative complement within whatever set `Not` receives, never an
absolute complement within the full Catalog. -/
theorem c6_not_relative :
    ∀ (β : Type) (conditions : List (Dict β → Dict β)) (db : Dict β),
      Not conditions db =
        db.filter (fun kv => decide (kv.1 ∉ keys (Or conditions db)))
      ∧ ∀ kv, kv ∈ Not conditions db ↔
          kv ∈ db ∧ kv.1 ∉ keys (Or conditions db) := by
  intro β conditions db
  refine ⟨rfl, ?_⟩
  intro kv
  show kv ∈ db.filter (fun kv => decide (kv.1 ∉ keys (Or conditions db))) ↔ _
  rw [List.mem_filter]
  simp only [decide_eq_true_eq]

/-- C9: each keyword bound of `CMC` whose value is not `None` becomes
exactly one `And`-ed `search` call on the `convertedManaCost` field with
the comparison method the keyword names, `None` and absent bounds are
omitted, and the result never depends on the required positional
argument `value`, which the body ignores (the signature bug: the
source's own docstring example `CMC(le=2)` would raise a `TypeError`
for lack of it). -/
theorem c9_cmc_bounds (value : Int) (kwargs : List (Str × Option Int))
    (h : ∀ mv ∈ kwargs, mv.2 ≠ none → mv.1 ∈ keys cmcMethods) :
    CMC value kwargs = some (And (kwargs.filterMap (fun mv =>
      match mv.2 with
      | none => none
      | some v => (dictFind cmcMethods mv.1).map
          (fun meth => search cmcField meth v))))
    ∧ ∀ value2 : Int, CMC value2 kwargs = CMC value kwargs := by
  refine ⟨?_, fun _ => rfl⟩
  unfold CMC
  rw [cmcConds_eq kwargs h]
  rfl

/-- Witness for C9 at the docstring's bound `le=2`. -/
theorem c9_witness :
    (∀ mv ∈ [((['l', 'e'] : Str), some (2 : Int))],
      mv.2 ≠ none → mv.1 ∈ keys cmcMethods)
    ∧ (∃ conds, CMC 0 [((['l', 'e'] : Str), some (2 : Int))] = some (And conds))
    ∧ CMC 7 [((['l', 'e'] : Str), some (2 : Int))] =
        CMC 0 [((['l', 'e'] : Str), some (2 : Int))] := by
  have hh : ∀ mv ∈ [((['l', 'e'] : Str), some (2 : Int))],
      mv.2 ≠ none → mv.1 ∈ keys cmcMethods := by decide
  exact ⟨hh, ⟨_, (c9_cmc_bounds 0 _ hh).1⟩, (c9_cmc_bounds 0 _ hh).2 7⟩

/-- C1 counterexample: the claim's flag assignment (leftward nested
attempt with leftward recursion disabled but rightward enabled, and
symmetrically) — embodied by `searchWordsClaimC1` — disagrees with the
source's `search_words` on the catalog `{a b c}` with line `a b c` and
span `[2, 2]` (the cursor on the last word): the source widens leftward
twice and resolves the whole line from position 0, the claim's variant
resolves from position 2. -/
theorem c1_counterexample :
    searchWordsClaimC1 (split_string abcLine wordChars) abcLine 20 abcDb 2 2
      true true ≠
      some (search_words (split_string abcLine wordChars) abcLine abcDb 2 2
        true true)
    ∧ search_words (split_string abcLine wordChars) abcLine abcDb 2 2
        true true = some (SWOut.matched 0 4 abcName)
    ∧ searchWordsClaimC1 (split_string abcLine wordChars) abcLine 20 abcDb 2 2
        true true = some (some (SWOut.matched 2 4 abcName))
    ∧ cursor_word (split_string abcLine wordChars) 4 = 2
    ∧ identify_card_name abcDb abcLine 4 = IdResult.matched 0 4 abcName := by
  refine ⟨?_, by decide, by decide, by decide, by decide⟩
  decide

/-- C1 amended: in the source's widening step the leftward nested
attempt on span `[start_word - 1, end_word]` is made with RIGHTWARD
recursion disabled inside that nested call while it may still recurse
leftward, and symmetrically the rightward nested attempt on
`[start_word, end_word + 1]` is made with leftward recursion disabled
while it may still recurse rightward — each direction's nested call may
keep widening in its own direction but not in the other (the opposite
of the claim's flag assignment). -/
theorem c1_amended (words : List Word) (line : Str) (db : Catalog)
    (s e : Int) (L R : Bool) :
    search_words words line db s e L R =
      if s < 0 then none
      else if (words.length : Int) ≤ e then none
      else
        let m := lookup_in db (replText line words s e)
        if m = [] then none
        else
          let rightStep : Int → Int → Catalog → Option SWOut := fun s1 e1 m1 =>
            if R then
              match search_words words line m1 s1 (e1 + 1) false true with
              | some (SWOut.matched a b nm) => some (SWOut.matched a b nm)
              | some (SWOut.multiple s2 e2 m2) => finish words line db s2 e2 m2
              | none => finish words line db s1 e1 m1
            else finish words line db s1 e1 m1
          if L then
            match search_words words line m (s - 1) e true false with
            | some (SWOut.matched a b nm) => some (SWOut.matched a b nm)
            | some (SWOut.multiple s1 e1 m1) => rightStep s1 e1 m1
            | none => rightStep s e m
          else rightStep s e m :=
  search_words_unfold words line db s e L R

/-- C2: when widening in a direction is out of bounds or the nested
widening attempt finds zero substring matches, resolution keeps the
pre-widening span and candidate set; in particular on a catalog holding
"Island" (and nothing containing "island septictank"),
`identify_card_name(db, "island septictank", 0)` resolves to
`(0, 5, "Island")`. -/
theorem c2_widening_fallback :
    (∀ (words : List Word) (line : Str) (db : Catalog) (s e : Int) (R : Bool),
      search_words words line (lookup_in db (replText line words s e))
        (s - 1) e true false = none →
      search_words words line db s e true R =
        search_words words line db s e false R)
    ∧ (∀ (words : List Word) (line : Str) (db : Catalog) (s e : Int),
      search_words words line (lookup_in db (replText line words s e))
        s (e + 1) false true = none →
      search_words words line db s e false true =
        search_words words line db s e false false)
    ∧ (∀ (words : List Word) (line : Str) (db : Catalog) (s1 e1 : Int)
        (m1 : Catalog),
      search_words words line m1 s1 (e1 + 1) false true = none →
      bothRight words line db s1 e1 m1 = finish words line db s1 e1 m1)
    ∧ (∀ (words : List Word) (line : Str) (m : Catalog) (s e : Int),
      s - 1 < 0 → search_words words line m (s - 1) e true false = none)
    ∧ (∀ (words : List Word) (line : Str) (m : Catalog) (s e : Int),
      (words.length : Int) ≤ e + 1 →
      search_words words line m s (e + 1) false true = none)
    ∧ identify_card_name islandDb islandSepticLine 0 =
        IdResult.matched 0 5 ['I', 's', 'l', 'a', 'n', 'd'] := by
  refine ⟨?_, ?_, ?_, ?_, ?_, by decide⟩
  · intro words line db s e R h
    rw [search_words_unfold words line db s e true R,
      search_words_unfold words line db s e false R]
    by_cases hs : s < 0
    · simp [hs]
    by_cases he : (words.length : Int) ≤ e
    · simp [hs, he]
    by_cases hme : lookup_in db (replText line words s e) = []
    · simp [hs, he, hme]
    simp only [if_neg hs, if_neg he, if_neg hme, h]
    simp
  · intro words line db s e h
    rw [search_words_unfold words line db s e false true,
      search_words_unfold words line db s e false false]
    by_cases hs : s < 0
    · simp [hs]
    by_cases he : (words.length : Int) ≤ e
    · simp [hs, he]
    by_cases hme : lookup_in db (replText line words s e) = []
    · simp [hs, he, hme]
    simp only [if_neg hs, if_neg he, if_neg hme, h]
    simp
  · intro words line db s1 e1 m1 h
    unfold bothRight
    rw [show searchRight words line m1 s1 (e1 + 1) =
      search_words words line m1 s1 (e1 + 1) false true from rfl, h]
  · intro words line m s e h
    exact search_words_guard (Or.inl h)
  · intro words line m s e h
    exact search_words_guard (Or.inr h)

/-- Witness for C2's general parts on the island catalog: the rightward
widening attempt from the single-word span fails, so resolution keeps
the single-word span; the leftward attempt is out of bounds. -/
theorem c2_witness :
    (search_words (split_string islandSepticLine wordChars) islandSepticLine
      (lookup_in islandDb
        (replText islandSepticLine (split_string islandSepticLine wordChars) 0 0))
      0 1 false true = none
    ∧ search_words (split_string islandSepticLine wordChars) islandSepticLine
        islandDb 0 0 false true =
      search_words (split_string islandSepticLine wordChars) islandSepticLine
        islandDb 0 0 false false)
    ∧ ((0 : Int) - 1 < 0
    ∧ search_words (split_string islandSepticLine wordChars) islandSepticLine
        islandDb (0 - 1) 0 true false = none) := by
  constructor
  · have h : search_words (split_string islandSepticLine wordChars)
        islandSepticLine
        (lookup_in islandDb
          (replText islandSepticLine (split_string islandSepticLine wordChars) 0 0))
        0 (0 + 1) false true = none := by decide
    exact ⟨h, c2_widening_fallback.2.1 _ _ islandDb 0 0 h⟩
  · exact ⟨by decide,
      c2_widening_fallback.2.2.2.1 (split_string islandSepticLine wordChars)
        islandSepticLine islandDb 0 0 (by decide)⟩

/-- C3: when the outermost resolution ends in the ambiguous branch,
`identify_card_name` returns just the raw candidate mapping keyed by
normalized name with no span positions; in particular, on a catalog
holding "volcanic rambler" and "volcanic rush" (and no exact
"volcanic r"), resolving the line `Volcanic R` with the cursor in the
fragment yields exactly those two keys. -/
theorem c3_ambiguous_top :
    (∀ (db : Catalog) (line : Str) (pos : Nat) (s e : Int) (m : Catalog),
      search_words (split_string line wordChars) line db
        (cursor_word (split_string line wordChars) pos)
        (cursor_word (split_string line wordChars) pos) true true =
        some (SWOut.multiple s e m) →
      identify_card_name db line pos = IdResult.candidates m)
    ∧ identify_card_name volDb volLine 0 = IdResult.candidates volDb
    ∧ keys volDb = [volRamblerKey, volRushKey] := by
  refine ⟨?_, by decide, by decide⟩
  intro db line pos s e m h
  simp only [identify_card_name, h]

/-- Witness for C3 on the `Volcanic R` catalog: the outermost
`search_words` call ends in `MultipleMatches` and the top level strips
its span. -/
theorem c3_witness :
    search_words (split_string volLine wordChars) volLine volDb
      (cursor_word (split_string volLine wordChars) 0)
      (cursor_word (split_string volLine wordChars) 0) true true =
      some (SWOut.multiple 0 1 volDb)
    ∧ identify_card_name volDb volLine 0 = IdResult.candidates volDb := by
  have h : search_words (split_string volLine wordChars) volLine volDb
      (cursor_word (split_string volLine wordChars) 0)
      (cursor_word (split_string volLine wordChars) 0) true true =
      some (SWOut.multiple 0 1 volDb) := by decide
  exact ⟨h, c3_ambiguous_top.1 volDb volLine 0 0 1 volDb h⟩

/-- C7: `cursor_word` on an empty token list is `-1`; when some token
starts after the cursor it is the first such token's index minus one
(for token lists ordered the way the tokenizer emits them); otherwise it
is the index of the first token, scanning left to right, whose end the
cursor does not pass; and when the cursor is past every token's end it
is the last token's index. -/
theorem c7_cursor_word (pos : Nat) :
    cursor_word [] pos = -1
    ∧ (∀ (front : List Word) (w : Word) (rest : List Word),
        List.Pairwise (fun a b => a.stop < b.start) (front ++ w :: rest) →
        (∀ u ∈ front, u.start ≤ pos) → pos < w.start →
        cursor_word (front ++ w :: rest) pos = (front.length : Int) - 1)
    ∧ (∀ (front : List Word) (w : Word) (rest : List Word),
        (∀ u ∈ front ++ w :: rest, u.start ≤ pos) →
        (∀ u ∈ front, u.stop < pos) → pos ≤ w.stop →
        cursor_word (front ++ w :: rest) pos = (front.length : Int))
    ∧ ∀ ws : List Word, (∀ w ∈ ws, w.start ≤ w.stop ∧ w.stop < pos) →
        cursor_word ws pos = (ws.length : Int) - 1 :=
  ⟨rfl, cursor_word_first_start_gt pos, cursor_word_first_stop_ge pos,
    fun ws => cursor_word_past_all pos ws⟩

/-- Witness for C7 on the token lists of the cursor-locator unit tests:
cursor in leading whitespace before `(word, 3, 7)`, cursor inside
`(word1, 1, 6)` with `(word2, 9, 14)` after it, and cursor past the end
of `(word, 0, 4)`. -/
theorem c7_witness :
    cursor_word ([] ++ Word.mk ['w', 'o', 'r', 'd'] 3 7 :: []) 2 =
      ((0 : Nat) : Int) - 1
    ∧ cursor_word ([] ++ Word.mk ['w', 'o', 'r', 'd'] 0 4 :: []) 2 =
        ((0 : Nat) : Int)
    ∧ cursor_word [Word.mk ['w', 'o', 'r', 'd'] 0 4] 5 =
        (([Word.mk ['w', 'o', 'r', 'd'] 0 4].length : Nat) : Int) - 1 :=
  ⟨(c7_cursor_word 2).2.1 [] (Word.mk ['w', 'o', 'r', 'd'] 3 7) []
      (by decide) (by decide) (by decide),
    (c7_cursor_word 2).2.2.1 [] (Word.mk ['w', 'o', 'r', 'd'] 0 4) []
      (by decide) (by decide) (by decide),
    (c7_cursor_word 5).2.2.2 [Word.mk ['w', 'o', 'r', 'd'] 0 4] (by decide)⟩

/-- C8: the name resolver terminates on every catalog, line, and cursor
position within a recursion-depth budget of token count plus one frame:
run with any budget of at least `tokens + 1`, the step-indexed recursion
returns (it never exhausts the budget) and agrees with the total
`identify_card_name`.  Each nested call widens the current span by one
token (`search_words_multiple` gives the adopted-state bound) and spans
are cut off at the line's token count, which is what the budget
accounting in `searchWordsF_complete` formalizes. -/
theorem c8_termination :
    ∀ (db : Catalog) (line : Str) (pos fuel : Nat),
      (split_string line wordChars).length + 1 ≤ fuel →
      identifyF fuel db line pos = some (identify_card_name db line pos) := by
  intro db line pos fuel hf
  unfold identifyF identify_card_name
  dsimp only
  have hlt := cursor_word_lt_length (split_string line wordChars) pos
  have hneed : needF (split_string line wordChars).length
      (cursor_word (split_string line wordChars) pos)
      (cursor_word (split_string line wordChars) pos) ≤ fuel := by
    unfold needF
    split
    · omega
    · next hcond =>
      rw [not_or] at hcond
      omega
  rw [searchWordsF_complete (split_string line wordChars) line fuel db _ _
    true true hneed]
  cases hres : search_words (split_string line wordChars) line db
      (cursor_word (split_string line wordChars) pos)
      (cursor_word (split_string line wordChars) pos) true true with
  | none => rfl
  | some r => cases r <;> rfl

/-- Witness for C8 at the one-token line `swamp` with the minimum
budget the bound allows. -/
theorem c8_witness :
    (split_string swampLine wordChars).length + 1 ≤ 2
    ∧ identifyF 2 swampDb swampLine 0 =
        some (identify_card_name swampDb swampLine 0) :=
  ⟨by decide, c8_termination swampDb swampLine 0 2 (by decide)⟩

/-- C10: for every line with at least one token and every cursor
position strictly past the last token's end — including positions at or
beyond the line's length — `identify_card_name` is total (never rejects
the cursor) and behaves exactly as with the cursor on the last token:
the cursor locator yields the last token's index and resolution proceeds
from it. -/
theorem c10_cursor_past_end :
    ∀ (db : Catalog) (line : Str) (pos : Nat)
      (h : split_string line wordChars ≠ []),
      ((split_string line wordChars).getLast h).stop < pos →
      cursor_word (split_string line wordChars) pos =
        ((split_string line wordChars).length : Int) - 1
      ∧ identify_card_name db line pos =
          identify_card_name db line
            ((split_string line wordChars).getLast h).stop := by
  intro db line pos h hpos
  obtain ⟨hse, hpw⟩ := split_string_sorted line wordChars
  rcases List.eq_nil_or_concat (split_string line wordChars) with hnil | hcc
  · exact absurd hnil h
  obtain ⟨front, w, hcc⟩ := hcc
  rw [List.concat_eq_append] at hcc
  have hlast : (split_string line wordChars).getLast h = w :=
    (getLast_eq_of_eq hcc h).trans (getLast_append_one front w _)
  rw [hcc] at hse hpw
  have hwse : w.start ≤ w.stop := hse w (by simp)
  have hfr : ∀ u ∈ front, u.stop < w.start := by
    intro u hu
    exact (List.pairwise_append.mp hpw).2.2 u hu w (by simp)
  have hwstop : w.stop < pos := by
    rw [hlast] at hpos
    exact hpos
  have h1 : cursor_word (split_string line wordChars) pos =
      ((split_string line wordChars).length : Int) - 1 := by
    apply cursor_word_past_all
    intro u hu
    rw [hcc] at hu
    refine ⟨hse u hu, ?_⟩
    rcases List.mem_append.mp hu with hu | hu
    · have := hfr u hu
      omega
    · simp only [List.mem_singleton] at hu
      subst hu
      exact hwstop
  have h2 : cursor_word (split_string line wordChars) w.stop =
      ((split_string line wordChars).length : Int) - 1 := by
    rw [hcc]
    have hcw := cursor_word_first_stop_ge w.stop front w [] ?_ ?_ le_rfl
    · rw [show front ++ [w] = front ++ w :: [] from rfl, hcw]
      simp only [List.length_append, List.length_cons, List.length_nil]
      push_cast
      omega
    · intro u hu
      rcases List.mem_append.mp hu with hu | hu
      · have h3 := hse u (List.mem_append_left _ hu)
        have h4 := hfr u hu
        omega
      · simp only [List.mem_cons, List.not_mem_nil, or_false] at hu
        subst hu
        exact hwse
    · intro u hu
      have := hfr u hu
      omega
  refine ⟨h1, ?_⟩
  simp only [identify_card_name, hlast, h1, h2]

/-- Witness for C10 on the line `swamp ` (trailing whitespace) with the
cursor well past the line's end. -/
theorem c10_witness :
    (split_string (swampLine ++ [' ']) wordChars ≠ [])
    ∧ ∀ (h : split_string (swampLine ++ [' ']) wordChars ≠ []),
      ((split_string (swampLine ++ [' ']) wordChars).getLast h).stop < 9
      ∧ identify_card_name swampDb (swampLine ++ [' ']) 9 =
          identify_card_name swampDb (swampLine ++ [' '])
            ((split_string (swampLine ++ [' ']) wordChars).getLast h).stop := by
  refine ⟨by decide, ?_⟩
  intro h
  have hsplit : split_string (swampLine ++ [' ']) wordChars =
      [Word.mk swampLine 0 4] := by decide
  have hlast : (split_string (swampLine ++ [' ']) wordChars).getLast h =
      Word.mk swampLine 0 4 := (getLast_eq_of_eq hsplit h).trans rfl
  have hstop : ((split_string (swampLine ++ [' ']) wordChars).getLast h).stop < 9 := by
    rw [hlast]
    decide
  have hmain := (c10_cursor_past_end swampDb (swampLine ++ [' ']) 9 h hstop).2
  exact ⟨hstop, hmain⟩

end Moracle
